import Mathlib

/-!
# useSticky: sticky detection behind a debounced scroll listener

A shallow embedding of `front-end/erp-crm/src/hooks/useSticky.js`.

* `handleScroll` (source lines 9-14) is a function on the hook's cells
  (`isSticky`, `element.current`) that reads the page through a `View`.
* `debounce` (source lines 17-31) is a closure: its captured constants are a
  `Debounce`, its captured variable `timeOut` and the part of the host it
  touches (the timer table of `setTimeout` / `clearTimeout`) are a `DState`.
  The wrapper body is `Debounce.call`, the timer callback is `Debounce.later`.
* Time is in milliseconds, a natural number. Executions of the wrapped function
  are recorded in the log `DState.execs` together with the instant and the
  input they observed.
-/

namespace UseSticky

/-! ## Values and outcomes -/

/-- Errors raised by the code under study. -/
inductive JSError where
  /-- The `TypeError` raised by reading a property of `null`. -/
  | nullReference
  deriving DecidableEq, Repr

/-- How a JavaScript call ends: normally, or by an exception leaving it. -/
inductive Outcome where
  | ok
  | threw (e : JSError)
  deriving DecidableEq, Repr

/-! ## handleScroll -/

/-- What the page reports at one instant: `window.scrollY` and the `bottom` of
the bounding rectangle of the node the handle is attached to. -/
structure View where
  scrollY : ℚ
  bottom : ℚ
  deriving DecidableEq

/-- The cells of one hook instance: the `useState` cell and `element.current`
(`none` is `null`, the initial value given by `useRef(null)`). -/
structure Sticky where
  isSticky : Bool
  element : Option Nat
  deriving DecidableEq, Repr

/-- The state setter returned by `useState`. -/
def setSticky (b : Bool) (st : Sticky) : Sticky :=
  { st with isSticky := b }

/-- Source lines 9-14. Reading `.getBoundingClientRect` off `null` throws before
the comparison and before either call of the setter. -/
def handleScroll (v : View) (st : Sticky) : Sticky × Outcome :=
  match st.element with
  | none => (st, Outcome.threw JSError.nullReference)
  | some _ =>
    if v.scrollY > v.bottom then (setSticky true st, Outcome.ok)
    else (setSticky false st, Outcome.ok)

/-! ## debounce -/

/-- The value of the closure variable `timeOut`: `undefined` after `let timeOut`,
`null` after the timer callback ran, otherwise the handle `setTimeout` returned. -/
inductive TimerRef where
  | undefined
  | null
  | id (n : Nat)
  deriving DecidableEq, Repr

/-- JavaScript truthiness, as tested by `!timeOut`: `undefined`, `null` and the
number `0` are falsy. -/
def TimerRef.truthy : TimerRef → Bool
  | TimerRef.id n => n != 0
  | _ => false

/-- A scheduled timer of the host: its handle and the instant it is due. -/
structure Timer where
  id : Nat
  deadline : Nat
  deriving DecidableEq, Repr

/-- The constants captured by the closure that `debounce` returns. -/
structure Debounce (σ ι : Type) where
  func : ι → σ → σ × Outcome
  wait : Nat
  immediate : Bool

/-- Source line 17: `debounce(func, wait, immediate)`. -/
def debounce {σ ι : Type} (func : ι → σ → σ × Outcome) (wait : Nat) (immediate : Bool) :
    Debounce σ ι :=
  { func := func, wait := wait, immediate := immediate }

/-- Source line 17 with both default arguments, as called on line 34. -/
def debounceDefault {σ ι : Type} (func : ι → σ → σ × Outcome) : Debounce σ ι :=
  debounce func 20 true

/-- The mutable world of one wrapper: its variable `timeOut`, the host clock, the
host's handle counter and its table of scheduled timers that were neither
cancelled nor fired, the state `func` acts on, and the log of executions of
`func` (instant and input observed). -/
structure DState (σ ι : Type) where
  timeOut : TimerRef
  now : Nat
  nextId : Nat
  timers : List Timer
  app : σ
  execs : List (Nat × ι)

/-- The world right after `debounce` returned: `let timeOut` leaves the variable
`undefined`, nothing is scheduled and nothing was executed. -/
def DState.fresh {σ ι : Type} (now nextId : Nat) (app : σ) : DState σ ι :=
  { timeOut := TimerRef.undefined, now := now, nextId := nextId, timers := [],
    app := app, execs := [] }

/-- Host `clearTimeout`: cancels the timer with that handle; any other argument
(`undefined`, `null`, an unknown handle) is ignored. -/
def clearTimeout (r : TimerRef) (timers : List Timer) : List Timer :=
  match r with
  | TimerRef.id n => timers.filter (fun tm => tm.id != n)
  | _ => timers

/-- Host `setTimeout(cb, wait)` called at instant `t`: handles are positive
integers, each larger than the ones handed out before. Returns the handle. -/
def setTimeout {σ ι : Type} (t wait : Nat) (s : DState σ ι) : Nat × DState σ ι :=
  (s.nextId + 1,
   { s with nextId := s.nextId + 1,
            timers := s.timers ++ [{ id := s.nextId + 1, deadline := t + wait }] })

/-- Source lines 22-25, the timer callback `later`, run at instant `t` with the
page showing `i`. -/
def Debounce.later {σ ι : Type} (d : Debounce σ ι) (t : Nat) (i : ι) (s : DState σ ι) :
    DState σ ι × Outcome :=
  let s1 := { s with timeOut := TimerRef.null }
  if !d.immediate then
    let r := d.func i s1.app
    ({ s1 with app := r.1, execs := s1.execs ++ [(t, i)] }, r.2)
  else (s1, Outcome.ok)

/-- Source lines 19-30, the wrapper body, run at instant `t` with the page
showing `i`. -/
def Debounce.call {σ ι : Type} (d : Debounce σ ι) (t : Nat) (i : ι) (s : DState σ ι) :
    DState σ ι × Outcome :=
  let callNow := d.immediate && !s.timeOut.truthy
  let s1 := { s with timers := clearTimeout s.timeOut s.timers }
  let r := setTimeout t d.wait s1
  let s2 := { r.2 with timeOut := TimerRef.id r.1 }
  if callNow then
    let x := d.func i s2.app
    ({ s2 with app := x.1, execs := s2.execs ++ [(t, i)] }, x.2)
  else (s2, Outcome.ok)

/-! ## The event loop around one wrapper -/

/-- What the host does to a wrapper: it calls it (an event was dispatched), or a
timer the wrapper scheduled expires. Both carry the instant and what the page
shows then. -/
inductive Event (ι : Type) where
  | call (t : Nat) (i : ι)
  | expire (id : Nat) (t : Nat) (i : ι)
  deriving DecidableEq, Repr

/-- One step of the host. The clock never runs backwards, and a timer fires only
if it is scheduled and not before its deadline; `none` means the host cannot
take this step. A timer that fires leaves the table before its callback runs.
An exception leaving a listener or a timer callback is reported by the host
and the loop goes on. -/
def Debounce.step {σ ι : Type} (d : Debounce σ ι) (e : Event ι) (s : DState σ ι) :
    Option (DState σ ι) :=
  match e with
  | Event.call t i =>
    if s.now ≤ t then some (d.call t i { s with now := t }).1 else none
  | Event.expire id t i =>
    match s.timers.find? (fun tm => tm.id == id) with
    | none => none
    | some tm =>
      if s.now ≤ t ∧ tm.deadline ≤ t then
        some (d.later t i { s with now := t,
                                   timers := s.timers.filter (fun x => x.id != id) }).1
      else none

/-- Runs a sequence of events, left to right. -/
def Debounce.run {σ ι : Type} (d : Debounce σ ι) : List (Event ι) → DState σ ι →
    Option (DState σ ι)
  | [], s => some s
  | e :: es, s =>
    match d.step e s with
    | none => none
    | some s1 => d.run es s1

/-- The calls of a trace, in order: instant and input. -/
def callsOf {ι : Type} : List (Event ι) → List (Nat × ι)
  | [] => []
  | Event.call t i :: es => (t, i) :: callsOf es
  | Event.expire _ _ _ :: es => callsOf es

/-- A burst: every call after the first arrives after the previous call, less
than `wait` later. -/
def Burst {ι : Type} (wait : Nat) (cs : List (Nat × ι)) : Prop :=
  List.Chain' (fun a b => a.1 ≤ b.1 ∧ b.1 < a.1 + wait) cs

/-- The trace that consists of the calls `cs` and nothing else. -/
def callTrace {ι : Type} (cs : List (Nat × ι)) : List (Event ι) :=
  cs.map (fun c => Event.call c.1 c.2)

end UseSticky


namespace UseSticky

/-! ## Reachable states of one wrapper -/

/-- No timer is scheduled: the variable is falsy and every call so far is at
least `wait` old. -/
def Idle {σ ι : Type} (wait : Nat) (cs : List (Nat × ι)) (s : DState σ ι) : Prop :=
  s.timers = [] ∧ s.timeOut.truthy = false ∧ ∀ c ∈ cs, c.1 + wait ≤ s.now

/-- Exactly one timer is scheduled: the one set by the latest call, and the
variable holds its handle. -/
def Armed {σ ι : Type} (wait : Nat) (cs : List (Nat × ι)) (s : DState σ ι) : Prop :=
  ∃ id c, cs.getLast? = some c ∧ s.timers = [{ id := id, deadline := c.1 + wait }] ∧
    s.timeOut = TimerRef.id id ∧ 0 < id ∧ id ≤ s.nextId ∧ ∀ x ∈ cs, x.1 ≤ c.1

/-- The invariant of the states a wrapper reaches after the calls `cs`. -/
def Core {σ ι : Type} (wait : Nat) (cs : List (Nat × ι)) (s : DState σ ι) : Prop :=
  (Idle wait cs s ∨ Armed wait cs s) ∧ ∀ c ∈ cs, c.1 ≤ s.now

/-! ## The hook: renders, the effect and the window's listeners

React is outside the repository. It is modelled by the rules the hook relies on:
a render evaluates the function body (lines 5-31), every function expression
evaluated yields a function value with a new identity, and after a render the
effect of lines 33-38 re-runs (pending cleanup first, then the body) when a
dependency is not identical to its value at the previous render. The window
keeps its scroll listeners by identity. -/

/-- A registered scroll listener: the identity of the function value, and, as it
is a wrapper made by `debounce`, its variable `timeOut` and the timers it has
scheduled. -/
structure Listener where
  fn : Nat
  timeOut : TimerRef
  timers : List Timer
  deriving DecidableEq, Repr

/-- One component instance and the part of the page it touches: the hook's cells,
the window's scroll listeners in registration order, the number of function
identities handed out, the dependencies of the previous render
(`[debounce, handleScroll]`), the pending cleanup (the `handleScroll` it
captured), the host clock and handle counter, the log of executions of
`handleScroll`, and whether the component was torn down. -/
structure Hook where
  sticky : Sticky
  listeners : List Listener
  nextFn : Nat
  deps : Option (Nat × Nat)
  cleanup : Option Nat
  now : Nat
  nextId : Nat
  execs : List (Nat × View)
  unmounted : Bool
  deriving DecidableEq

/-- Before the first render: `useState(false)`, `useRef(null)`, nothing
registered. -/
def Hook.init : Hook :=
  { sticky := { isSticky := false, element := none }, listeners := [], nextFn := 0,
    deps := none, cleanup := none, now := 0, nextId := 0, execs := [],
    unmounted := false }

/-- `window.addEventListener("scroll", cb)`: a callback already registered (the
same function value) is not added twice. -/
def addEventListener (l : Listener) (ls : List Listener) : List Listener :=
  if ls.any (fun x => x.fn == l.fn) then ls else ls ++ [l]

/-- `window.removeEventListener("scroll", cb)`: removes the listener identical to
`cb`, if there is one. -/
def removeEventListener (fn : Nat) (ls : List Listener) : List Listener :=
  ls.filter (fun x => x.fn != fn)

/-- Source line 34, the effect body, in a render whose `handleScroll` has identity
`hs`: `debounce(handleScroll)` returns a new function value, which is
registered; the cleanup returned on line 35 captures `handleScroll`. -/
def effectBody (hs : Nat) (h : Hook) : Hook :=
  { h with nextFn := h.nextFn + 1,
           listeners := addEventListener
             { fn := h.nextFn, timeOut := TimerRef.undefined, timers := [] } h.listeners,
           cleanup := some hs }

/-- Source lines 35-37, the cleanup: the arrow expression `() => handleScroll` is
evaluated to a new function value, and that value is what is passed to
`removeEventListener`. -/
def runCleanup (h : Hook) : Hook :=
  match h.cleanup with
  | none => h
  | some _ =>
    { h with nextFn := h.nextFn + 1,
             listeners := removeEventListener h.nextFn h.listeners,
             cleanup := none }

/-- One render of the component followed by its effect. Lines 9 and 17 evaluate
two function expressions: `handleScroll` and `debounce` get new identities. The
effect runs unless both dependencies are identical to the previous ones. -/
def render (h : Hook) : Hook :=
  let hs := h.nextFn
  let db := h.nextFn + 1
  let h1 := { h with nextFn := h.nextFn + 2 }
  if h1.deps = some (db, hs) then h1
  else { effectBody hs (runCleanup h1) with deps := some (db, hs) }

/-- The caller attaches the returned handle to a rendered node. -/
def attach (node : Nat) (h : Hook) : Hook :=
  { h with sticky := { h.sticky with element := some node } }

/-- Component teardown: the pending cleanup runs, React detaches the handle from
the removed node (`element.current` is `null` again) and from then on drops
every update of the state cell. -/
def unmount (h : Hook) : Hook :=
  let h1 := runCleanup h
  { h1 with sticky := { h1.sticky with element := none }, unmounted := true }

/-- `n` renders in a row. -/
def renders : Nat → Hook → Hook
  | 0, h => h
  | n + 1, h => render (renders n h)

/-- What React keeps of the cells after a handler ran: the update of a component
that was torn down is dropped. -/
def commit (h : Hook) (st : Sticky) : Sticky :=
  if h.unmounted then h.sticky else st

/-- The window calls one registered listener at instant `t`: the wrapper body of
`debounce(handleScroll)` runs on the wrapper's own variable and timers and on
the shared cells. -/
def invoke (t : Nat) (v : View) (l : Listener) (h : Hook) : Listener × Hook :=
  let s : DState Sticky View :=
    { timeOut := l.timeOut, now := t, nextId := h.nextId, timers := l.timers,
      app := h.sticky, execs := h.execs }
  let r := ((debounceDefault handleScroll).call t v s).1
  ({ l with timeOut := r.timeOut, timers := r.timers },
   { h with sticky := commit h r.app, nextId := r.nextId, now := t, execs := r.execs })

/-- The window calls the listeners in registration order. -/
def dispatch (t : Nat) (v : View) : List Listener → Hook → List Listener × Hook
  | [], h => ([], h)
  | l :: ls, h =>
    let r := invoke t v l h
    let r2 := dispatch t v ls r.2
    (r.1 :: r2.1, r2.2)

/-- A scroll event at instant `t` with the page showing `v`. Timers that are due
fire as steps of their own (`timerFires`), before or after the event. -/
def scroll (t : Nat) (v : View) (h : Hook) : Hook :=
  let r := dispatch t v h.listeners h
  { r.2 with listeners := r.1 }

/-- The host fires timer `id` at instant `t` if listener `l` scheduled it and it is
due: the timer leaves the table and the callback `later` of that wrapper runs. -/
def fireOne (id t : Nat) (v : View) (l : Listener) (h : Hook) : Listener × Hook :=
  match l.timers.find? (fun tm => tm.id == id) with
  | none => (l, h)
  | some tm =>
    if tm.deadline ≤ t then
      let s : DState Sticky View :=
        { timeOut := l.timeOut, now := t, nextId := h.nextId,
          timers := l.timers.filter (fun x => x.id != id),
          app := h.sticky, execs := h.execs }
      let r := ((debounceDefault handleScroll).later t v s).1
      ({ l with timeOut := r.timeOut, timers := r.timers },
       { h with sticky := commit h r.app, nextId := r.nextId, now := t, execs := r.execs })
    else (l, h)

/-- Looks for the wrapper that scheduled timer `id` among the listeners. -/
def fireAll (id t : Nat) (v : View) : List Listener → Hook → List Listener × Hook
  | [], h => ([], h)
  | l :: ls, h =>
    let r := fireOne id t v l h
    let r2 := fireAll id t v ls r.2
    (r.1 :: r2.1, r2.2)

/-- Timer `id` expires at instant `t` with the page showing `v`; nothing happens
if no such timer is scheduled or it is not due yet. -/
def timerFires (id t : Nat) (v : View) (h : Hook) : Hook :=
  let r := fireAll id t v h.listeners h
  { r.2 with listeners := r.1 }

/-- What the host does to the page of one component: it dispatches a scroll event
or lets a timer expire. -/
inductive HookEvent where
  | scroll (t : Nat) (v : View)
  | expire (id : Nat) (t : Nat) (v : View)
  deriving DecidableEq

/-- One step of the host; an event stamped earlier than the clock is not taken. -/
def Hook.step (e : HookEvent) (h : Hook) : Hook :=
  match e with
  | HookEvent.scroll t v => if h.now ≤ t then scroll t v h else h
  | HookEvent.expire id t v => if h.now ≤ t then timerFires id t v h else h

/-- Runs a sequence of host events, left to right. -/
def Hook.runEvents : List HookEvent → Hook → Hook
  | [], h => h
  | e :: es, h => Hook.runEvents es (Hook.step e h)

/-- A scroll event on a mounted component: React renders again when the state
cell changed. -/
def scrollMounted (t : Nat) (v : View) (h : Hook) : Hook :=
  let h1 := scroll t v h
  if h1.sticky.isSticky = h.sticky.isSticky then h1 else render h1

/-! ## Sample inputs -/

/-- A page scrolled past the tracked node: offset 600, bottom edge 500. -/
def viewPast : View := { scrollY := 600, bottom := 500 }

/-- A page not scrolled past the tracked node: offset 400, bottom edge 500. -/
def viewBefore : View := { scrollY := 400, bottom := 500 }

/-- The cells of a mounted hook with the handle bound and the flag down. -/
def stickyBound : Sticky := { isSticky := false, element := some 1 }

/-- Ten scroll events within 5 ms; only the first sees the page scrolled past the
node. -/
def burst10 : List (Nat × View) :=
  [(0, viewPast), (0, viewBefore), (1, viewBefore), (1, viewBefore), (2, viewBefore),
   (2, viewBefore), (3, viewBefore), (3, viewBefore), (4, viewBefore), (4, viewBefore)]

/-- Identities are handed out in increasing order: every registered listener and
the `handleScroll` remembered in the dependencies are older than the next
function value. -/
def Hook.Ordered (h : Hook) : Prop :=
  (∀ l ∈ h.listeners, l.fn < h.nextFn) ∧ ∀ p, h.deps = some p → p.2 < h.nextFn

end UseSticky

namespace UseSticky

/-! ## Lemmas on runs -/

theorem callsOf_append {ι : Type} (a b : List (Event ι)) :
    callsOf (a ++ b) = callsOf a ++ callsOf b := by
  induction a with
  | nil => rfl
  | cons e es ih =>
    cases e with
    | call t i => simp [callsOf, ih]
    | expire id t i => simp [callsOf, ih]

theorem run_append {σ ι : Type} (d : Debounce σ ι) (a b : List (Event ι)) (s : DState σ ι) :
    d.run (a ++ b) s = (d.run a s).bind (d.run b) := by
  induction a generalizing s with
  | nil => rfl
  | cons e es ih =>
    simp only [List.cons_append, Debounce.run]
    cases h : d.step e s with
    | none => rfl
    | some s1 => simpa using ih s1

theorem run_snoc {σ ι : Type} (d : Debounce σ ι) (tr : List (Event ι)) (e : Event ι)
    (s0 s1 : DState σ ι) :
    d.run (tr ++ [e]) s0 = some s1 ↔ ∃ s, d.run tr s0 = some s ∧ d.step e s = some s1 := by
  rw [run_append]
  cases h : d.run tr s0 with
  | none => simp
  | some s =>
    simp only [Option.some_bind, Debounce.run, Option.some.injEq, exists_eq_left']
    cases h1 : d.step e s <;> simp

/-- Induction over the states reached from `s0`. -/
theorem run_induction {σ ι : Type} (d : Debounce σ ι) (s0 : DState σ ι)
    (P : List (Event ι) → DState σ ι → Prop) (h0 : P [] s0)
    (hstep : ∀ tr s e s1, d.run tr s0 = some s → P tr s → d.step e s = some s1 →
      P (tr ++ [e]) s1) :
    ∀ tr s, d.run tr s0 = some s → P tr s := by
  intro tr
  induction tr using List.reverseRecOn with
  | nil =>
    intro s h
    simp only [Debounce.run, Option.some.injEq] at h
    subst h
    exact h0
  | append_singleton tr e ih =>
    intro s1 h
    obtain ⟨s, hs, he⟩ := (run_snoc d tr e s0 s1).1 h
    exact hstep tr s e s1 hs (ih s hs) he

theorem step_call_inv {σ ι : Type} (d : Debounce σ ι) (t : Nat) (i : ι) (s s1 : DState σ ι)
    (h : d.step (Event.call t i) s = some s1) :
    s.now ≤ t ∧ s1 = (d.call t i { s with now := t }).1 := by
  simp only [Debounce.step] at h
  split at h
  · rename_i hle
    exact ⟨hle, (Option.some.inj h).symm⟩
  · cases h

theorem step_expire_inv {σ ι : Type} (d : Debounce σ ι) (id t : Nat) (i : ι)
    (s s1 : DState σ ι) (h : d.step (Event.expire id t i) s = some s1) :
    ∃ tm, s.timers.find? (fun x => x.id == id) = some tm ∧ s.now ≤ t ∧ tm.deadline ≤ t ∧
      s1 = (d.later t i { s with now := t,
                                 timers := s.timers.filter (fun x => x.id != id) }).1 := by
  simp only [Debounce.step] at h
  split at h
  · cases h
  · rename_i tm htm
    split at h
    · rename_i hle
      exact ⟨tm, htm, hle.1, hle.2, (Option.some.inj h).symm⟩
    · cases h

theorem find_singleton {tm0 tm : Timer} {id : Nat}
    (h : List.find? (fun x => x.id == id) [tm0] = some tm) : tm = tm0 ∧ tm0.id = id := by
  simp only [List.find?] at h
  split at h
  · rename_i heq
    exact ⟨(Option.some.inj h).symm, by simpa using heq⟩
  · cases h

/-- The state a call leaves behind when no timer is scheduled and `timeOut` is
falsy. -/
theorem call_idle {σ ι : Type} (d : Debounce σ ι) (t : Nat) (i : ι) (s : DState σ ι)
    (ht : s.timers = []) (hf : s.timeOut.truthy = false) :
    (d.call t i s).1.timers = [{ id := s.nextId + 1, deadline := t + d.wait }] ∧
    (d.call t i s).1.timeOut = TimerRef.id (s.nextId + 1) ∧
    (d.call t i s).1.nextId = s.nextId + 1 ∧
    (d.call t i s).1.now = s.now ∧
    (d.call t i s).1.execs = (if d.immediate then s.execs ++ [(t, i)] else s.execs) ∧
    (d.call t i s).1.app = (if d.immediate then (d.func i s.app).1 else s.app) := by
  have hc : clearTimeout s.timeOut s.timers = [] := by
    rw [ht]; unfold clearTimeout; split <;> simp
  cases hi : d.immediate <;>
    simp [Debounce.call, setTimeout, hc, hf, hi]

/-- The state a call leaves behind when the timer held by `timeOut` is the one
scheduled. -/
theorem call_armed {σ ι : Type} (d : Debounce σ ι) (t : Nat) (i : ι) (s : DState σ ι)
    (id dl : Nat) (ht : s.timers = [{ id := id, deadline := dl }])
    (hr : s.timeOut = TimerRef.id id) (hpos : 0 < id) :
    (d.call t i s).1.timers = [{ id := s.nextId + 1, deadline := t + d.wait }] ∧
    (d.call t i s).1.timeOut = TimerRef.id (s.nextId + 1) ∧
    (d.call t i s).1.nextId = s.nextId + 1 ∧
    (d.call t i s).1.now = s.now ∧
    (d.call t i s).1.execs = (if d.immediate then s.execs else s.execs) ∧
    (d.call t i s).1.app = s.app := by
  have hc : clearTimeout s.timeOut s.timers = [] := by
    rw [ht, hr]; simp [clearTimeout]
  have hf : s.timeOut.truthy = true := by
    rw [hr]; simp [TimerRef.truthy]; omega
  cases hi : d.immediate <;>
    simp [Debounce.call, setTimeout, hc, hf, hi]

/-- The state the timer callback leaves behind. -/
theorem later_fields {σ ι : Type} (d : Debounce σ ι) (t : Nat) (i : ι) (s : DState σ ι) :
    (d.later t i s).1.timers = s.timers ∧
    (d.later t i s).1.timeOut = TimerRef.null ∧
    (d.later t i s).1.nextId = s.nextId ∧
    (d.later t i s).1.now = s.now ∧
    (d.later t i s).1.execs = (if d.immediate then s.execs else s.execs ++ [(t, i)]) ∧
    (d.later t i s).1.app = (if d.immediate then s.app else (d.func i s.app).1) := by
  cases hi : d.immediate <;> simp [Debounce.later, hi]

theorem core_fresh {σ ι : Type} (wait now nextId : Nat) (app : σ) :
    Core wait ([] : List (Nat × ι)) (DState.fresh now nextId app : DState σ ι) := by
  refine ⟨Or.inl ⟨rfl, rfl, ?_⟩, ?_⟩ <;> simp

/-- A call step re-arms the wrapper. -/
theorem core_call {σ ι : Type} (d : Debounce σ ι) (cs : List (Nat × ι)) (t : Nat) (i : ι)
    (s s1 : DState σ ι) (hc : Core d.wait cs s) (h : d.step (Event.call t i) s = some s1) :
    Armed d.wait (cs ++ [(t, i)]) s1 ∧ Core d.wait (cs ++ [(t, i)]) s1 ∧
    s1.timers = [{ id := s.nextId + 1, deadline := t + d.wait }] ∧
    s1.timeOut = TimerRef.id (s.nextId + 1) ∧ s1.now = t := by
  obtain ⟨hle, rfl⟩ := step_call_inv d t i s s1 h
  obtain ⟨hstate, hnow⟩ := hc
  have key : (d.call t i { s with now := t }).1.timers
        = [{ id := s.nextId + 1, deadline := t + d.wait }] ∧
      (d.call t i { s with now := t }).1.timeOut = TimerRef.id (s.nextId + 1) ∧
      (d.call t i { s with now := t }).1.nextId = s.nextId + 1 ∧
      (d.call t i { s with now := t }).1.now = t := by
    rcases hstate with ⟨ht, hf, _⟩ | ⟨id, c, _, ht, hr, hpos, _, _⟩
    · have := call_idle d t i { s with now := t } ht hf
      exact ⟨this.1, this.2.1, this.2.2.1, this.2.2.2.1⟩
    · have := call_armed d t i { s with now := t } id _ ht hr hpos
      exact ⟨this.1, this.2.1, this.2.2.1, this.2.2.2.1⟩
  obtain ⟨k1, k2, k3, k4⟩ := key
  have hall : ∀ x ∈ cs ++ [(t, i)], x.1 ≤ t := by
    intro x hx
    rcases List.mem_append.1 hx with hx | hx
    · exact le_trans (hnow x hx) hle
    · simp only [List.mem_singleton] at hx
      subst hx
      exact le_refl _
  have harmed : Armed d.wait (cs ++ [(t, i)]) (d.call t i { s with now := t }).1 :=
    ⟨s.nextId + 1, (t, i), by simp, k1, k2, Nat.succ_pos _, by rw [k3], hall⟩
  refine ⟨harmed, ⟨Or.inr harmed, ?_⟩, k1, k2, k4⟩
  intro x hx
  rw [k4]
  exact hall x hx

/-- A timer can expire only when the wrapper is armed, and leaves it idle. -/
theorem core_expire {σ ι : Type} (d : Debounce σ ι) (cs : List (Nat × ι)) (id t : Nat) (i : ι)
    (s s1 : DState σ ι) (hc : Core d.wait cs s)
    (h : d.step (Event.expire id t i) s = some s1) :
    Armed d.wait cs s ∧ Idle d.wait cs s1 ∧ Core d.wait cs s1 ∧
    s1.timeOut = TimerRef.null ∧ s1.now = t ∧
    (∃ c, cs.getLast? = some c ∧ c.1 + d.wait ≤ t) ∧
    s1.execs = (if d.immediate then s.execs else s.execs ++ [(t, i)]) ∧
    s1.app = (if d.immediate then s.app else (d.func i s.app).1) := by
  obtain ⟨tm, hfind, hle, hdl, rfl⟩ := step_expire_inv d id t i s s1 h
  obtain ⟨hstate, hnow⟩ := hc
  rcases hstate with ⟨ht, _, _⟩ | ⟨id0, c, hlast, ht, hr, hpos, hid, hsorted⟩
  · rw [ht] at hfind
    cases hfind
  · have harmed : Armed d.wait cs s := ⟨id0, c, hlast, ht, hr, hpos, hid, hsorted⟩
    rw [ht] at hfind
    obtain ⟨rfl, hid0⟩ := find_singleton hfind
    simp only at hid0 hdl
    subst hid0
    have hfl := later_fields d t i
      { s with now := t, timers := s.timers.filter (fun x => x.id != id0) }
    obtain ⟨f1, f2, _, f4, f5, f6⟩ := hfl
    have hempty : s.timers.filter (fun x => x.id != id0) = [] := by
      rw [ht]; simp
    have hidle : Idle d.wait cs (d.later t i
        { s with now := t, timers := s.timers.filter (fun x => x.id != id0) }).1 := by
      refine ⟨by rw [f1]; exact hempty, by rw [f2]; rfl, ?_⟩
      intro x hx
      rw [f4]
      have := hsorted x hx
      simp only
      omega
    refine ⟨harmed, hidle, ⟨Or.inl hidle, ?_⟩, f2, f4, ⟨c, hlast, hdl⟩, f5, f6⟩
    intro x hx
    rw [f4]
    exact le_trans (hnow x hx) hle

/-- Every state reached from a fresh wrapper satisfies the invariant. -/
theorem core_reach {σ ι : Type} (d : Debounce σ ι) (now nextId : Nat) (app : σ)
    (tr : List (Event ι)) (s : DState σ ι)
    (h : d.run tr (DState.fresh now nextId app) = some s) :
    Core d.wait (callsOf tr) s := by
  refine run_induction d (DState.fresh now nextId app)
    (fun tr s => Core d.wait (callsOf tr) s) (core_fresh _ _ _ _) ?_ tr s h
  intro tr s e s1 _ hP hstep
  cases e with
  | call t i =>
    rw [callsOf_append]
    exact (core_call d (callsOf tr) t i s s1 hP hstep).2.1
  | expire id t i =>
    rw [callsOf_append]
    simpa [callsOf] using (core_expire d (callsOf tr) id t i s s1 hP hstep).2.2.1

/-- What a call step does to the log, by the state it finds. -/
theorem call_cases {σ ι : Type} (d : Debounce σ ι) (cs : List (Nat × ι)) (t : Nat) (i : ι)
    (s s1 : DState σ ι) (hc : Core d.wait cs s) (h : d.step (Event.call t i) s = some s1) :
    (Idle d.wait cs s ∧
      s1.execs = (if d.immediate then s.execs ++ [(t, i)] else s.execs) ∧
      s1.app = (if d.immediate then (d.func i s.app).1 else s.app)) ∨
    (Armed d.wait cs s ∧ s1.execs = s.execs ∧ s1.app = s.app) := by
  obtain ⟨_, rfl⟩ := step_call_inv d t i s s1 h
  rcases hc.1 with hidle | harmed
  · left
    have := call_idle d t i { s with now := t } hidle.1 hidle.2.1
    exact ⟨hidle, this.2.2.2.2.1, this.2.2.2.2.2⟩
  · right
    have harmed2 := harmed
    obtain ⟨id, c, _, ht, hr, hpos, _, _⟩ := harmed2
    have := call_armed d t i { s with now := t } id _ ht hr hpos
    refine ⟨harmed, ?_, this.2.2.2.2.2⟩
    have h5 := this.2.2.2.2.1
    simpa using h5

/-- An idle wrapper has let `wait` pass since its latest call; an armed one has a
timer scheduled. -/
theorem idle_not_armed {σ ι : Type} (wait : Nat) (cs : List (Nat × ι)) (s : DState σ ι)
    (hi : Idle wait cs s) (ha : Armed wait cs s) : False := by
  obtain ⟨id, c, _, ht, _⟩ := ha
  rw [hi.1] at ht
  cases ht

/-- With `immediate = true`: every execution is one of the calls, and executions
are at least `wait` apart. -/
theorem lead_reach {σ ι : Type} (d : Debounce σ ι) (hi : d.immediate = true)
    (now nextId : Nat) (app : σ) (tr : List (Event ι)) (s : DState σ ι)
    (h : d.run tr (DState.fresh now nextId app) = some s) :
    (∀ e ∈ s.execs, e ∈ callsOf tr) ∧
    List.Pairwise (fun a b => a.1 + d.wait ≤ b.1) s.execs := by
  refine run_induction d (DState.fresh now nextId app)
    (fun tr s => (∀ e ∈ s.execs, e ∈ callsOf tr) ∧
      List.Pairwise (fun a b => a.1 + d.wait ≤ b.1) s.execs) ?_ ?_ tr s h
  · simp [DState.fresh]
  · intro tr s e s1 hrun hP hstep
    have hc := core_reach d now nextId app tr s hrun
    cases e with
    | call t i =>
      obtain ⟨hle, _⟩ := step_call_inv d t i s s1 hstep
      rw [callsOf_append]
      rcases call_cases d (callsOf tr) t i s s1 hc hstep with ⟨hidle, he, _⟩ | ⟨_, he, _⟩
      · rw [he, hi]
        simp only [if_true]
        constructor
        · intro e hmem
          rcases List.mem_append.1 hmem with hm | hm
          · exact List.mem_append_left _ (hP.1 e hm)
          · exact List.mem_append_right _ (by simpa [callsOf] using hm)
        · rw [List.pairwise_append]
          refine ⟨hP.2, List.pairwise_singleton _ _, ?_⟩
          intro a ha b hb
          simp only [List.mem_singleton] at hb
          subst hb
          have := hidle.2.2 a (hP.1 a ha)
          simp only
          omega
      · rw [he]
        exact ⟨fun e hm => List.mem_append_left _ (hP.1 e hm), hP.2⟩
    | expire id t i =>
      have := (core_expire d (callsOf tr) id t i s s1 hc hstep).2.2.2.2.2.2.1
      rw [hi] at this
      simp only [if_true] at this
      rw [this, callsOf_append]
      exact ⟨fun e hm => List.mem_append_left _ (hP.1 e hm), hP.2⟩

theorem callsOf_callTrace {ι : Type} (cs : List (Nat × ι)) : callsOf (callTrace cs) = cs := by
  induction cs with
  | nil => rfl
  | cons c cs ih =>
    simp only [callTrace, List.map_cons, callsOf] at ih ⊢
    rw [ih]

theorem call_now {σ ι : Type} (d : Debounce σ ι) (t : Nat) (i : ι) (s : DState σ ι) :
    (d.call t i s).1.now = s.now := by
  simp only [Debounce.call, setTimeout]
  split <;> rfl

/-- Calls that arrive in time order can always be delivered. -/
theorem run_callTrace_some {σ ι : Type} (d : Debounce σ ι) (cs : List (Nat × ι)) :
    ∀ s : DState σ ι, List.Chain' (fun a b : Nat × ι => a.1 ≤ b.1) cs →
      (∀ c, cs.head? = some c → s.now ≤ c.1) →
      ∃ s1, d.run (callTrace cs) s = some s1 := by
  induction cs with
  | nil => intro s _ _; exact ⟨s, rfl⟩
  | cons c cs ih =>
    intro s hch hhead
    have hle : s.now ≤ c.1 := hhead c rfl
    have hstep : d.step (Event.call c.1 c.2) s
        = some (d.call c.1 c.2 { s with now := c.1 }).1 := by
      simp [Debounce.step, hle]
    obtain ⟨s1, hs1⟩ := ih (d.call c.1 c.2 { s with now := c.1 }).1
      (List.Chain'.tail hch) (by
        intro c2 hc2
        rw [call_now]
        cases cs with
        | nil => cases hc2
        | cons x xs =>
          simp only [List.head?_cons, Option.some.injEq] at hc2
          subst hc2
          exact (List.chain'_cons.1 hch).1)
    refine ⟨s1, ?_⟩
    simp only [callTrace, List.map_cons, Debounce.run, hstep]
    exact hs1

/-- After a non-empty sequence of calls, delivered to a fresh wrapper, the timer of
the last call is the one scheduled and the clock shows the last call. -/
theorem run_callTrace_armed {σ ι : Type} (d : Debounce σ ι) (now nextId : Nat) (app : σ)
    (cs : List (Nat × ι)) (cN : Nat × ι) (hlast : cs.getLast? = some cN)
    (hch : List.Chain' (fun a b : Nat × ι => a.1 ≤ b.1) cs)
    (h0 : ∀ c, cs.head? = some c → now ≤ c.1) :
    ∃ s1 id, d.run (callTrace cs) (DState.fresh now nextId app) = some s1 ∧
      s1.timers = [{ id := id, deadline := cN.1 + d.wait }] ∧ s1.now = cN.1 := by
  obtain ⟨s1, hs1⟩ := run_callTrace_some d cs (DState.fresh now nextId app) hch h0
  have hsplit : cs = cs.dropLast ++ [cN] :=
    (List.dropLast_append_getLast? cN hlast).symm
  have htr : callTrace cs = callTrace cs.dropLast ++ [Event.call cN.1 cN.2] := by
    conv_lhs => rw [hsplit]
    simp [callTrace]
  rw [htr] at hs1
  obtain ⟨s, hs, hstep⟩ := (run_snoc d _ _ _ s1).1 hs1
  have hc := core_reach d now nextId app _ s hs
  obtain ⟨_, _, k1, _, k4⟩ := core_call d _ cN.1 cN.2 s s1 hc hstep
  refine ⟨s1, s.nextId + 1, ?_, k1, k4⟩
  rw [htr]
  exact hs1

/-- A scheduled timer can fire at any instant from its deadline on. -/
theorem expire_enabled {σ ι : Type} (d : Debounce σ ι) (s : DState σ ι) (id dl tf : Nat)
    (j : ι) (ht : s.timers = [{ id := id, deadline := dl }]) (hnow : s.now ≤ tf)
    (hdl : dl ≤ tf) : ∃ s2, d.step (Event.expire id tf j) s = some s2 := by
  simp [Debounce.step, ht, hnow, hdl]

theorem burst_snoc {ι : Type} (wait : Nat) (cs : List (Nat × ι)) (c : Nat × ι)
    (h : Burst wait (cs ++ [c])) :
    Burst wait cs ∧ ∀ x, cs.getLast? = some x → c.1 < x.1 + wait := by
  unfold Burst at h ⊢
  rw [List.chain'_append] at h
  refine ⟨h.1, ?_⟩
  intro x hx
  exact (h.2.2 x hx c (by simp)).2

/-- With `immediate = true`, a burst is executed once, inside its first call. -/
theorem lead_burst {σ ι : Type} (d : Debounce σ ι) (hi : d.immediate = true)
    (now nextId : Nat) (app : σ) (tr : List (Event ι)) (s : DState σ ι)
    (h : d.run tr (DState.fresh now nextId app) = some s)
    (hb : Burst d.wait (callsOf tr)) :
    (callsOf tr = [] → s.execs = [] ∧ s.app = app) ∧
    (∀ c rest, callsOf tr = c :: rest → s.execs = [c] ∧ s.app = (d.func c.2 app).1) := by
  revert hb
  refine run_induction d (DState.fresh now nextId app)
    (fun tr s => Burst d.wait (callsOf tr) →
      (callsOf tr = [] → s.execs = [] ∧ s.app = app) ∧
      (∀ c rest, callsOf tr = c :: rest → s.execs = [c] ∧ s.app = (d.func c.2 app).1))
    ?_ ?_ tr s h
  · intro _
    exact ⟨fun _ => ⟨rfl, rfl⟩, fun c rest hcs => by simp [callsOf] at hcs⟩
  · intro tr s e s1 hrun hP hstep
    have hc := core_reach d now nextId app tr s hrun
    cases e with
    | call t i =>
      intro hb
      rw [callsOf_append] at hb ⊢
      simp only [callsOf] at hb ⊢
      obtain ⟨hb1, hb2⟩ := burst_snoc d.wait _ _ hb
      obtain ⟨hle, _⟩ := step_call_inv d t i s s1 hstep
      obtain ⟨hP1, hP2⟩ := hP hb1
      refine ⟨fun hnil => by simp at hnil, ?_⟩
      intro c rest hcs
      rcases call_cases d (callsOf tr) t i s s1 hc hstep with ⟨hidle, he, ha⟩ | ⟨harmed, he, ha⟩
      · cases hcalls : callsOf tr with
        | nil =>
          rw [hcalls] at hcs
          simp only [List.nil_append, List.cons.injEq] at hcs
          obtain ⟨hP1e, hP1a⟩ := hP1 hcalls
          rw [he, ha, hi, hP1e, hP1a, ← hcs.1]
          simp
        | cons c0 rest0 =>
          exfalso
          have hne : callsOf tr ≠ [] := by rw [hcalls]; simp
          have hl := List.getLast_mem_getLast? hne
          have h1 := hb2 _ hl
          have h2 := hidle.2.2 _ (List.getLast_mem hne)
          omega
      · cases hcalls : callsOf tr with
        | nil =>
          exfalso
          obtain ⟨_, c0, hl, _⟩ := harmed
          rw [hcalls] at hl
          cases hl
        | cons c0 rest0 =>
          rw [hcalls] at hcs
          simp only [List.cons_append, List.cons.injEq] at hcs
          obtain ⟨hPe, hPa⟩ := hP2 c0 rest0 hcalls
          rw [he, ha, hPe, hPa, ← hcs.1]
          exact ⟨rfl, rfl⟩
    | expire id t i =>
      intro hb
      rw [callsOf_append] at hb ⊢
      simp only [callsOf, List.append_nil] at hb ⊢
      obtain ⟨_, _, _, _, _, _, he, ha⟩ := core_expire d (callsOf tr) id t i s s1 hc hstep
      rw [hi] at he ha
      simp only [if_true] at he ha
      rw [he, ha]
      exact hP hb

/-- With `immediate = false`, a burst is executed once, by the timer of its last
call: until that timer fires nothing was executed. -/
theorem trail_burst {σ ι : Type} (d : Debounce σ ι) (hi : d.immediate = false)
    (now nextId : Nat) (app : σ) (tr : List (Event ι)) (s : DState σ ι)
    (h : d.run tr (DState.fresh now nextId app) = some s)
    (hb : Burst d.wait (callsOf tr)) :
    (callsOf tr = [] → s.execs = [] ∧ s.app = app) ∧
    (∀ cN, (callsOf tr).getLast? = some cN →
      (Armed d.wait (callsOf tr) s ∧ s.execs = [] ∧ s.app = app) ∨
      (Idle d.wait (callsOf tr) s ∧ ∃ tf j, s.execs = [(tf, j)] ∧ cN.1 + d.wait ≤ tf ∧
        s.app = (d.func j app).1)) := by
  revert hb
  refine run_induction d (DState.fresh now nextId app)
    (fun tr s => Burst d.wait (callsOf tr) →
      (callsOf tr = [] → s.execs = [] ∧ s.app = app) ∧
      (∀ cN, (callsOf tr).getLast? = some cN →
        (Armed d.wait (callsOf tr) s ∧ s.execs = [] ∧ s.app = app) ∨
        (Idle d.wait (callsOf tr) s ∧ ∃ tf j, s.execs = [(tf, j)] ∧ cN.1 + d.wait ≤ tf ∧
          s.app = (d.func j app).1)))
    ?_ ?_ tr s h
  · intro _
    exact ⟨fun _ => ⟨rfl, rfl⟩, fun cN hcs => by simp [callsOf] at hcs⟩
  · intro tr s e s1 hrun hP hstep
    have hc := core_reach d now nextId app tr s hrun
    cases e with
    | call t i =>
      intro hb
      rw [callsOf_append] at hb ⊢
      simp only [callsOf] at hb ⊢
      obtain ⟨hb1, hb2⟩ := burst_snoc d.wait _ _ hb
      obtain ⟨hle, _⟩ := step_call_inv d t i s s1 hstep
      obtain ⟨hP1, hP2⟩ := hP hb1
      obtain ⟨harmed1, _⟩ := core_call d (callsOf tr) t i s s1 hc hstep
      refine ⟨fun hnil => by simp at hnil, ?_⟩
      intro cN _
      left
      refine ⟨harmed1, ?_⟩
      have hsame : s1.execs = s.execs ∧ s1.app = s.app := by
        rcases call_cases d (callsOf tr) t i s s1 hc hstep with ⟨_, he, ha⟩ | ⟨_, he, ha⟩
        · rw [hi] at he ha
          exact ⟨by simpa using he, by simpa using ha⟩
        · exact ⟨he, ha⟩
      rw [hsame.1, hsame.2]
      cases hcalls : callsOf tr with
      | nil => exact hP1 hcalls
      | cons c0 rest0 =>
        have hne : callsOf tr ≠ [] := by rw [hcalls]; simp
        have hl := List.getLast_mem_getLast? hne
        rcases hP2 _ hl with ⟨_, he, ha⟩ | ⟨hidle, _⟩
        · exact ⟨he, ha⟩
        · exfalso
          have h1 := hb2 _ hl
          have h2 := hidle.2.2 _ (List.getLast_mem hne)
          omega
    | expire id t i =>
      intro hb
      rw [callsOf_append] at hb ⊢
      simp only [callsOf, List.append_nil] at hb ⊢
      obtain ⟨harmed, hidle1, _, _, _, ⟨c, hlast, hdl⟩, he, ha⟩ :=
        core_expire d (callsOf tr) id t i s s1 hc hstep
      rw [hi] at he ha
      simp only [Bool.false_eq_true, if_false] at he ha
      obtain ⟨_, hP2⟩ := hP hb
      constructor
      · intro hnil
        rw [hnil] at hlast
        cases hlast
      · intro cN hcN
        right
        rw [hlast] at hcN
        cases hcN
        rcases hP2 c hlast with ⟨_, hpe, hpa⟩ | ⟨hidle, _⟩
        · refine ⟨hidle1, t, i, ?_, hdl, ?_⟩
          · rw [he, hpe]; rfl
          · rw [ha, hpa]
        · exact (idle_not_armed _ _ _ hidle harmed).elim

/-! ## Claims on the debounce wrapper -/

/-- C6: in every state a wrapper reaches from its creation, by any interleaving of
calls and timer expirations, for any `wait` and either value of `immediate`, at
most one timer is scheduled; right after a call at `t` exactly one timer is
scheduled, due at `t + wait`, its handle is the one held in `timeOut`, and no
timer scheduled before the call is still scheduled; after an expiration no
timer is scheduled. -/
theorem debounce_single_timer {σ ι : Type} (d : Debounce σ ι) (now nextId : Nat) (app : σ)
    (tr : List (Event ι)) (s : DState σ ι)
    (h : d.run tr (DState.fresh now nextId app) = some s) :
    s.timers.length ≤ 1 ∧
    (∀ t i s1, d.step (Event.call t i) s = some s1 →
      ∃ id, s1.timers = [{ id := id, deadline := t + d.wait }] ∧
        s1.timeOut = TimerRef.id id ∧ ∀ tm ∈ s.timers, tm ∉ s1.timers) ∧
    (∀ id t i s1, d.step (Event.expire id t i) s = some s1 → s1.timers = []) := by
  have hc := core_reach d now nextId app tr s h
  refine ⟨?_, ?_, ?_⟩
  · rcases hc.1 with hidle | ⟨id, c, _, ht, _⟩
    · rw [hidle.1]; simp
    · rw [ht]; simp
  · intro t i s1 hstep
    obtain ⟨_, _, k1, k2, _⟩ := core_call d (callsOf tr) t i s s1 hc hstep
    refine ⟨s.nextId + 1, k1, k2, ?_⟩
    intro tm htm
    rcases hc.1 with hidle | ⟨id, c, _, ht, _, _, hid, _⟩
    · rw [hidle.1] at htm
      cases htm
    · rw [ht] at htm
      rw [k1]
      simp only [List.mem_singleton] at htm ⊢
      subst htm
      intro heq
      have := congrArg Timer.id heq
      simp only at this
      omega
  · intro id t i s1 hstep
    exact (core_expire d (callsOf tr) id t i s s1 hc hstep).2.1.1

/-- C9: with `immediate = true`, in every reachable state a timer expiration
executes `func` zero times and only clears the pending timer (and sets
`timeOut` to `null`); a call at `t` while a timer is pending executes `func`
zero times and leaves exactly one timer, due at `t + wait`; hence a call that
arrives less than `wait` after the previous call is suppressed, whatever the
log of executions holds. -/
theorem debounce_leading_no_trailing {σ ι : Type} (d : Debounce σ ι)
    (hi : d.immediate = true) (now nextId : Nat) (app : σ)
    (tr : List (Event ι)) (s : DState σ ι)
    (h : d.run tr (DState.fresh now nextId app) = some s) :
    (∀ id t i s1, d.step (Event.expire id t i) s = some s1 →
      s1.execs = s.execs ∧ s1.app = s.app ∧ s1.timers = [] ∧
        s1.timeOut = TimerRef.null) ∧
    (∀ t i s1, s.timers ≠ [] → d.step (Event.call t i) s = some s1 →
      s1.execs = s.execs ∧ s1.app = s.app ∧
        ∃ id, s1.timers = [{ id := id, deadline := t + d.wait }] ∧
          s1.timeOut = TimerRef.id id) ∧
    (∀ c t i s1, (callsOf tr).getLast? = some c → t < c.1 + d.wait →
      d.step (Event.call t i) s = some s1 →
      s1.execs = s.execs ∧ s1.app = s.app ∧
        ∃ id, s1.timers = [{ id := id, deadline := t + d.wait }] ∧
          s1.timeOut = TimerRef.id id) := by
  have hc := core_reach d now nextId app tr s h
  refine ⟨?_, ?_, ?_⟩
  · intro id t i s1 hstep
    obtain ⟨_, hidle, _, hnull, _, _, he, ha⟩ := core_expire d (callsOf tr) id t i s s1 hc hstep
    rw [hi] at he ha
    exact ⟨by simpa using he, by simpa using ha, hidle.1, hnull⟩
  · intro t i s1 hne hstep
    obtain ⟨_, _, k1, k2, _⟩ := core_call d (callsOf tr) t i s s1 hc hstep
    rcases call_cases d (callsOf tr) t i s s1 hc hstep with ⟨hidle, _, _⟩ | ⟨_, he, ha⟩
    · exact absurd hidle.1 hne
    · exact ⟨he, ha, s.nextId + 1, k1, k2⟩
  · intro c t i s1 hlast hlt hstep
    obtain ⟨hle, _⟩ := step_call_inv d t i s s1 hstep
    obtain ⟨_, _, k1, k2, _⟩ := core_call d (callsOf tr) t i s s1 hc hstep
    rcases call_cases d (callsOf tr) t i s s1 hc hstep with ⟨hidle, _, _⟩ | ⟨_, he, ha⟩
    · have := hidle.2.2 c (List.mem_of_getLast?_eq_some hlast)
      omega
    · exact ⟨he, ha, s.nextId + 1, k1, k2⟩

/-- C8, as amended: with `immediate = true`, for every `wait`, in every reachable
state any two executions of `func`, taken in the order they happened, are at
instants `e1 ≤ e2` with `e2 - e1 ≥ wait`, and `e1 < e2` when `wait > 0`; an
execution happens only inside a call, never in a timer expiration; and a call
at `t` that executes `func` comes at least `wait` after every earlier execution
and at least `wait` after the most recent earlier call. -/
theorem debounce_leading_spacing {σ ι : Type} (d : Debounce σ ι)
    (hi : d.immediate = true) (now nextId : Nat) (app : σ)
    (tr : List (Event ι)) (s : DState σ ι)
    (h : d.run tr (DState.fresh now nextId app) = some s) :
    List.Pairwise (fun a b => a.1 ≤ b.1 ∧ a.1 + d.wait ≤ b.1) s.execs ∧
    (0 < d.wait → List.Pairwise (fun a b => a.1 < b.1) s.execs) ∧
    (∀ id t i s1, d.step (Event.expire id t i) s = some s1 → s1.execs = s.execs) ∧
    (∀ t i s1, d.step (Event.call t i) s = some s1 → s1.execs ≠ s.execs →
      s1.execs = s.execs ++ [(t, i)] ∧ (∀ e ∈ s.execs, e.1 + d.wait ≤ t) ∧
        ∀ c, (callsOf tr).getLast? = some c → c.1 + d.wait ≤ t) := by
  have hc := core_reach d now nextId app tr s h
  obtain ⟨hmem, hpw⟩ := lead_reach d hi now nextId app tr s h
  refine ⟨?_, ?_, ?_, ?_⟩
  · refine hpw.imp ?_
    intro a b hab
    exact ⟨by omega, hab⟩
  · intro hw
    refine hpw.imp ?_
    intro a b hab
    omega
  · intro id t i s1 hstep
    have he := (core_expire d (callsOf tr) id t i s s1 hc hstep).2.2.2.2.2.2.1
    rw [hi] at he
    simpa using he
  · intro t i s1 hstep hne
    obtain ⟨hle, _⟩ := step_call_inv d t i s s1 hstep
    rcases call_cases d (callsOf tr) t i s s1 hc hstep with ⟨hidle, he, _⟩ | ⟨_, he, _⟩
    · rw [hi] at he
      refine ⟨by simpa using he, ?_, ?_⟩
      · intro e hmeme
        have := hidle.2.2 e (hmem e hmeme)
        omega
      · intro c hlast
        have := hidle.2.2 c (List.mem_of_getLast?_eq_some hlast)
        omega
    · exact absurd he hne

/-- C2: for a fresh wrapper with `immediate = true` and a burst of `N ≥ 1` calls
`c1 :: rest` (each call after the first arrives after the previous one, less
than `wait` later): in every state reached by a trace whose calls are this
burst, timer expirations interleaved in any possible way and the last timer
fired or not, `func` was executed exactly once, at the instant and on the input
of the first call; and the burst followed by the expiration of its last timer,
at any instant from `(last call) + wait` on, is such a trace. Holds for every
`wait`, so for every `wait > 0`. -/
theorem debounce_leading_burst_once {σ ι : Type} (d : Debounce σ ι)
    (hi : d.immediate = true) (now nextId : Nat) (app : σ)
    (c1 cN : Nat × ι) (rest : List (Nat × ι))
    (hlast : (c1 :: rest).getLast? = some cN)
    (hb : Burst d.wait (c1 :: rest)) (h0 : now ≤ c1.1) :
    (∀ tr s, callsOf tr = c1 :: rest → d.run tr (DState.fresh now nextId app) = some s →
      s.execs = [c1] ∧ s.app = (d.func c1.2 app).1) ∧
    (∃ s1 id, d.run (callTrace (c1 :: rest)) (DState.fresh now nextId app) = some s1 ∧
      s1.timers = [{ id := id, deadline := cN.1 + d.wait }] ∧
      ∀ tf j, cN.1 + d.wait ≤ tf →
        ∃ s2, d.run (callTrace (c1 :: rest) ++ [Event.expire id tf j])
            (DState.fresh now nextId app) = some s2 ∧
          s2.timers = [] ∧ s2.execs = [c1] ∧ s2.app = (d.func c1.2 app).1) := by
  have hgen : ∀ tr s, callsOf tr = c1 :: rest →
      d.run tr (DState.fresh now nextId app) = some s →
      s.execs = [c1] ∧ s.app = (d.func c1.2 app).1 := by
    intro tr s hcs hrun
    exact (lead_burst d hi now nextId app tr s hrun (by rw [hcs]; exact hb)).2 c1 rest hcs
  refine ⟨hgen, ?_⟩
  have hch : List.Chain' (fun a b : Nat × ι => a.1 ≤ b.1) (c1 :: rest) :=
    List.Chain'.imp (fun a b hab => hab.1) hb
  obtain ⟨s1, id, hs1, ht, hnow⟩ := run_callTrace_armed d now nextId app (c1 :: rest) cN hlast
    hch (by intro c hc; simp only [List.head?_cons, Option.some.injEq] at hc; subst hc; exact h0)
  refine ⟨s1, id, hs1, ht, ?_⟩
  intro tf j htf
  obtain ⟨s2, hs2⟩ := expire_enabled d s1 id _ tf j ht (by omega) htf
  have hrun2 : d.run (callTrace (c1 :: rest) ++ [Event.expire id tf j])
      (DState.fresh now nextId app) = some s2 :=
    (run_snoc d _ _ _ s2).2 ⟨s1, hs1, hs2⟩
  have hcs2 : callsOf (callTrace (c1 :: rest) ++ [Event.expire id tf j]) = c1 :: rest := by
    rw [callsOf_append, callsOf_callTrace]
    simp [callsOf]
  have hc1 := core_reach d now nextId app _ s1 hs1
  have hidle := (core_expire d _ id tf j s1 s2 hc1 hs2).2.1
  exact ⟨s2, hrun2, hidle.1, hgen _ s2 hcs2 hrun2⟩

/-- C3: for a fresh wrapper with `immediate = true`, a call at `t1`, the expiration
of its timer at some `tf` with `t1 + wait ≤ tf ≤ t2`, and a call at `t2`, where
`t2 - t1 > wait`: the three steps can be taken, the first call executes `func`,
the expiration executes nothing, the second call executes `func` again, so
`func` is executed exactly twice, once inside each call. Holds for every `wait`,
so for every `wait > 0`. -/
theorem debounce_leading_two_spaced_calls {σ ι : Type} (d : Debounce σ ι)
    (hi : d.immediate = true) (now nextId : Nat) (app : σ) (t1 tf t2 : Nat) (i1 j i2 : ι)
    (h0 : now ≤ t1) (_hgap : t1 + d.wait < t2) (hdue : t1 + d.wait ≤ tf) (hbefore : tf ≤ t2) :
    ∃ s1 s2 s3,
      d.step (Event.call t1 i1) (DState.fresh now nextId app) = some s1 ∧
      s1.execs = [(t1, i1)] ∧
      s1.timers = [{ id := nextId + 1, deadline := t1 + d.wait }] ∧
      d.step (Event.expire (nextId + 1) tf j) s1 = some s2 ∧ s2.execs = [(t1, i1)] ∧
      d.step (Event.call t2 i2) s2 = some s3 ∧ s3.execs = [(t1, i1), (t2, i2)] ∧
      s3.app = (d.func i2 (d.func i1 app).1).1 ∧
      d.run [Event.call t1 i1, Event.expire (nextId + 1) tf j, Event.call t2 i2]
        (DState.fresh now nextId app) = some s3 := by
  have hc0 : Core d.wait ([] : List (Nat × ι)) (DState.fresh now nextId app : DState σ ι) :=
    core_fresh _ _ _ _
  have hs1 : d.step (Event.call t1 i1) (DState.fresh now nextId app)
      = some (d.call t1 i1 { (DState.fresh now nextId app : DState σ ι) with now := t1 }).1 := by
    simp only [Debounce.step]
    rw [if_pos]
    exact h0
  generalize (d.call t1 i1 { (DState.fresh now nextId app : DState σ ι) with now := t1 }).1
    = s1 at hs1
  obtain ⟨_, hc1, ht1, _, hnow1⟩ := core_call d [] t1 i1 _ s1 hc0 hs1
  have he1 : s1.execs = [(t1, i1)] ∧ s1.app = (d.func i1 app).1 := by
    rcases call_cases d [] t1 i1 _ s1 hc0 hs1 with ⟨_, he, ha⟩ | ⟨harmed, _, _⟩
    · rw [hi] at he ha
      exact ⟨by simpa [DState.fresh] using he, by simpa [DState.fresh] using ha⟩
    · obtain ⟨_, c, hl, _⟩ := harmed
      cases hl
  obtain ⟨s2, hs2⟩ := expire_enabled d s1 (nextId + 1) _ tf j ht1 (by omega) hdue
  obtain ⟨_, hidle2, hc2, _, hnow2, _, he2, ha2⟩ := core_expire d _ _ tf j s1 s2 hc1 hs2
  rw [hi] at he2 ha2
  simp only [if_true] at he2 ha2
  have hs3 : d.step (Event.call t2 i2) s2 = some (d.call t2 i2 { s2 with now := t2 }).1 := by
    simp only [Debounce.step]
    rw [if_pos]
    omega
  generalize (d.call t2 i2 { s2 with now := t2 }).1 = s3 at hs3
  have he3 : s3.execs = [(t1, i1), (t2, i2)] ∧ s3.app = (d.func i2 (d.func i1 app).1).1 := by
    rcases call_cases d _ t2 i2 s2 s3 hc2 hs3 with ⟨_, he, ha⟩ | ⟨harmed, _, _⟩
    · rw [hi] at he ha
      simp only [if_true] at he ha
      rw [he, ha, he2, ha2, he1.1, he1.2]
      exact ⟨rfl, rfl⟩
    · exact (idle_not_armed _ _ _ hidle2 harmed).elim
  refine ⟨s1, s2, s3, hs1, he1.1, ht1, hs2, ?_, hs3, he3.1, he3.2, ?_⟩
  · rw [he2, he1.1]
  · simp only [Debounce.run, hs1, hs2, hs3]

/-- C10: for a fresh wrapper with `immediate = false`: no call executes `func` (in
any state, a call leaves the log and the state of `func` untouched and ends
normally); and for a burst of `N ≥ 1` calls `c1 :: rest` with last call `cN`,
in every state reached by a trace whose calls are this burst either the last
timer is still pending and nothing was executed, or no timer is pending and
`func` was executed exactly once, by a timer expiration at some instant
`tf ≥ cN + wait`, on the input seen then; the burst followed by that
expiration is such a trace. Holds for every `wait`, so for every `wait > 0`. -/
theorem debounce_trailing_burst_once {σ ι : Type} (d : Debounce σ ι)
    (hi : d.immediate = false) (now nextId : Nat) (app : σ)
    (c1 cN : Nat × ι) (rest : List (Nat × ι))
    (hlast : (c1 :: rest).getLast? = some cN)
    (hb : Burst d.wait (c1 :: rest)) (h0 : now ≤ c1.1) :
    (∀ t i (s : DState σ ι), (d.call t i s).1.execs = s.execs ∧
      (d.call t i s).1.app = s.app ∧ (d.call t i s).2 = Outcome.ok) ∧
    (∀ tr s, callsOf tr = c1 :: rest → d.run tr (DState.fresh now nextId app) = some s →
      (s.timers ≠ [] ∧ s.execs = [] ∧ s.app = app) ∨
      (s.timers = [] ∧ ∃ tf j, s.execs = [(tf, j)] ∧ cN.1 + d.wait ≤ tf ∧
        s.app = (d.func j app).1)) ∧
    (∃ s1 id, d.run (callTrace (c1 :: rest)) (DState.fresh now nextId app) = some s1 ∧
      s1.timers = [{ id := id, deadline := cN.1 + d.wait }] ∧ s1.execs = [] ∧
      ∀ tf j, cN.1 + d.wait ≤ tf →
        ∃ s2, d.run (callTrace (c1 :: rest) ++ [Event.expire id tf j])
            (DState.fresh now nextId app) = some s2 ∧
          s2.timers = [] ∧ s2.execs = [(tf, j)] ∧ s2.app = (d.func j app).1) := by
  have hgen : ∀ tr s, callsOf tr = c1 :: rest →
      d.run tr (DState.fresh now nextId app) = some s →
      (Armed d.wait (c1 :: rest) s ∧ s.execs = [] ∧ s.app = app) ∨
      (Idle d.wait (c1 :: rest) s ∧ ∃ tf j, s.execs = [(tf, j)] ∧ cN.1 + d.wait ≤ tf ∧
        s.app = (d.func j app).1) := by
    intro tr s hcs hrun
    have := (trail_burst d hi now nextId app tr s hrun (by rw [hcs]; exact hb)).2 cN
      (by rw [hcs]; exact hlast)
    rw [hcs] at this
    exact this
  refine ⟨?_, ?_, ?_⟩
  · intro t i s
    simp [Debounce.call, setTimeout, hi]
  · intro tr s hcs hrun
    rcases hgen tr s hcs hrun with ⟨harmed, he, ha⟩ | ⟨hidle, hex⟩
    · left
      obtain ⟨id, c, _, ht, _⟩ := harmed
      exact ⟨by rw [ht]; simp, he, ha⟩
    · right
      exact ⟨hidle.1, hex⟩
  · have hch : List.Chain' (fun a b : Nat × ι => a.1 ≤ b.1) (c1 :: rest) :=
      List.Chain'.imp (fun a b hab => hab.1) hb
    obtain ⟨s1, id, hs1, ht, hnow⟩ := run_callTrace_armed d now nextId app (c1 :: rest) cN
      hlast hch
      (by intro c hc; simp only [List.head?_cons, Option.some.injEq] at hc; subst hc; exact h0)
    have hs1e : s1.execs = [] ∧ s1.app = app := by
      rcases hgen _ s1 (callsOf_callTrace _) hs1 with ⟨_, he, ha⟩ | ⟨hidle, _⟩
      · exact ⟨he, ha⟩
      · rw [hidle.1] at ht
        cases ht
    refine ⟨s1, id, hs1, ht, hs1e.1, ?_⟩
    intro tf j htf
    obtain ⟨s2, hs2⟩ := expire_enabled d s1 id _ tf j ht (by omega) htf
    have hrun2 : d.run (callTrace (c1 :: rest) ++ [Event.expire id tf j])
        (DState.fresh now nextId app) = some s2 :=
      (run_snoc d _ _ _ s2).2 ⟨s1, hs1, hs2⟩
    have hc1 := core_reach d now nextId app _ s1 hs1
    obtain ⟨_, hidle, _, _, _, _, he, ha⟩ := core_expire d _ id tf j s1 s2 hc1 hs2
    rw [hi] at he ha
    simp only [Bool.false_eq_true, if_false] at he ha
    refine ⟨s2, hrun2, hidle.1, ?_, ?_⟩
    · rw [he, hs1e.1]; rfl
    · rw [ha, hs1e.2]

/-! ## Claims on handleScroll -/

/-- C1: for every scroll offset `s`, every bottom edge `b`, every earlier value of
`isSticky` and every bound node, one direct call of `handleScroll` ends
normally and leaves `isSticky = (s > b)` and the handle untouched; the
comparison is strict (`s = b` gives `false`); with `b = 500`, `s = 400` gives
`false` and then `s = 600` gives `true`. -/
theorem handleScroll_sets_flag (s b : ℚ) (was : Bool) (node : Nat) :
    handleScroll { scrollY := s, bottom := b } { isSticky := was, element := some node }
      = ({ isSticky := decide (s > b), element := some node }, Outcome.ok) ∧
    handleScroll { scrollY := b, bottom := b } { isSticky := was, element := some node }
      = ({ isSticky := false, element := some node }, Outcome.ok) ∧
    (handleScroll { scrollY := 400, bottom := 500 }
      { isSticky := was, element := some node }).1.isSticky = false ∧
    (handleScroll { scrollY := 600, bottom := 500 }
      (handleScroll { scrollY := 400, bottom := 500 }
        { isSticky := was, element := some node }).1).1.isSticky = true := by
  refine ⟨?_, ?_, ?_, ?_⟩
  · by_cases h : s > b <;> simp [handleScroll, setSticky, h]
  · simp [handleScroll, setSticky]
  · norm_num [handleScroll, setSticky]
  · norm_num [handleScroll, setSticky]

/-- C7: `handleScroll` ends with the null-reference error exactly when
`element.current` is `null`, and ends normally otherwise; when it throws, the
cells are unchanged; nothing catches the error: a wrapper call that executes
`func` ends the way `func` ends (likewise the timer callback), so a call of
`debounce(handleScroll, wait, true)` with a falsy `timeOut` and an unbound
handle throws the null-reference error, with `isSticky` unchanged and the timer
already set. -/
theorem handleScroll_unbound_throws (v : View) (st : Sticky) (wait t : Nat)
    (s : DState Sticky View) (d : Debounce Sticky View) :
    ((handleScroll v st).2 = Outcome.threw JSError.nullReference ↔ st.element = none) ∧
    ((handleScroll v st).2 = Outcome.ok ↔ st.element ≠ none) ∧
    (st.element = none → (handleScroll v st).1 = st) ∧
    ((d.immediate && !s.timeOut.truthy) = true → (d.call t v s).2 = (d.func v s.app).2) ∧
    (d.immediate = false → (d.later t v s).2 = (d.func v s.app).2) ∧
    (s.timeOut.truthy = false → s.app.element = none →
      ((debounce handleScroll wait true).call t v s).2
        = Outcome.threw JSError.nullReference ∧
      ((debounce handleScroll wait true).call t v s).1.app = s.app ∧
      ((debounce handleScroll wait true).call t v s).1.execs = s.execs ++ [(t, v)] ∧
      ((debounce handleScroll wait true).call t v s).1.timeOut
        = TimerRef.id (s.nextId + 1)) := by
  refine ⟨?_, ?_, ?_, ?_, ?_, ?_⟩
  · unfold handleScroll
    cases h : st.element with
    | none => simp
    | some n => simp only; split <;> simp
  · unfold handleScroll
    cases h : st.element with
    | none => simp
    | some n => simp only; split <;> simp
  · intro h
    simp [handleScroll, h]
  · intro h
    simp only [Debounce.call, setTimeout]
    rw [if_pos h]
  · intro h
    simp [Debounce.later, h]
  · intro hf hnone
    simp [Debounce.call, setTimeout, debounce, hf, handleScroll, hnone]

/-! ## The hook's listeners -/

/-- The cleanup removes nothing: the function value it passes to
`removeEventListener` is newer than every registered listener. -/
theorem runCleanup_listeners (h : Hook) (hw : ∀ l ∈ h.listeners, l.fn < h.nextFn) :
    (runCleanup h).listeners = h.listeners ∧ h.nextFn ≤ (runCleanup h).nextFn ∧
    (runCleanup h).deps = h.deps := by
  unfold runCleanup
  cases h.cleanup with
  | none => simp
  | some hs =>
    refine ⟨?_, by simp, rfl⟩
    simp only [removeEventListener]
    rw [List.filter_eq_self]
    intro l hl
    have := hw l hl
    simp only [bne_iff_ne, ne_eq]
    omega

/-- Every render registers one more listener and removes none. -/
theorem render_listeners (h : Hook) (hw : h.Ordered) :
    (∃ l, (render h).listeners = h.listeners ++ [l]) ∧ (render h).Ordered := by
  obtain ⟨hl, hd⟩ := hw
  have hdeps : ¬ (h.deps = some (h.nextFn + 1, h.nextFn)) := by
    intro heq
    have := hd _ heq
    simp at this
  have hr : render h = { effectBody h.nextFn (runCleanup { h with nextFn := h.nextFn + 2 })
      with deps := some (h.nextFn + 1, h.nextFn) } := by
    unfold render
    simp only
    rw [if_neg hdeps]
  have hc := runCleanup_listeners { h with nextFn := h.nextFn + 2 }
    (by intro l hmem; have := hl l hmem; simp only; omega)
  rw [hr]
  generalize runCleanup { h with nextFn := h.nextFn + 2 } = g at hc ⊢
  obtain ⟨c1, c2, _⟩ := hc
  simp only at c1 c2
  have hnone : h.listeners.any (fun x => x.fn == g.nextFn) = false := by
    rw [List.any_eq_false]
    intro l hmem
    have := hl l hmem
    simp only [beq_iff_eq]
    omega
  have hls : (effectBody h.nextFn g).listeners
      = h.listeners ++ [{ fn := g.nextFn, timeOut := TimerRef.undefined, timers := [] }] := by
    simp only [effectBody, addEventListener, c1, hnone, Bool.false_eq_true, if_false]
  have hnf : (effectBody h.nextFn g).nextFn = g.nextFn + 1 := rfl
  refine ⟨⟨_, hls⟩, ?_, ?_⟩
  · intro l hmem
    change l ∈ (effectBody h.nextFn g).listeners at hmem
    change l.fn < (effectBody h.nextFn g).nextFn
    rw [hls] at hmem
    rw [hnf]
    rcases List.mem_append.1 hmem with hm | hm
    · have := hl l hm
      omega
    · simp only [List.mem_singleton] at hm
      subst hm
      simp
  · intro p hp
    change some (h.nextFn + 1, h.nextFn) = some p at hp
    change p.2 < (effectBody h.nextFn g).nextFn
    rw [hnf]
    simp only [Option.some.injEq] at hp
    subst hp
    simp only
    omega

theorem renders_ordered (n : Nat) :
    (renders n Hook.init).Ordered ∧ (renders n Hook.init).listeners.length = n := by
  induction n with
  | zero => exact ⟨⟨by simp [renders, Hook.init], by simp [renders, Hook.init]⟩, rfl⟩
  | succ n ih =>
    obtain ⟨⟨l, hl⟩, ho⟩ := render_listeners (renders n Hook.init) ih.1
    refine ⟨ho, ?_⟩
    simp only [renders]
    rw [hl, List.length_append, ih.2]
    rfl

theorem invoke_frame (t : Nat) (v : View) (l : Listener) (h : Hook) :
    (invoke t v l h).1.fn = l.fn ∧ (invoke t v l h).2.unmounted = h.unmounted ∧
    (h.unmounted = true → (invoke t v l h).2.sticky = h.sticky) := by
  refine ⟨rfl, rfl, ?_⟩
  intro hu
  simp [invoke, commit, hu]

theorem dispatch_frame (t : Nat) (v : View) (ls : List Listener) :
    ∀ h : Hook, (dispatch t v ls h).1.map (fun l => l.fn) = ls.map (fun l => l.fn) ∧
      (dispatch t v ls h).2.unmounted = h.unmounted ∧
      (h.unmounted = true → (dispatch t v ls h).2.sticky = h.sticky) := by
  induction ls with
  | nil => intro h; exact ⟨rfl, rfl, fun _ => rfl⟩
  | cons l ls ih =>
    intro h
    obtain ⟨i1, i2, i3⟩ := invoke_frame t v l h
    obtain ⟨d1, d2, d3⟩ := ih (invoke t v l h).2
    simp only [dispatch, List.map_cons]
    refine ⟨by rw [d1, i1], by rw [d2, i2], ?_⟩
    intro hu
    rw [d3 (by rw [i2]; exact hu), i3 hu]

theorem fireOne_frame (id t : Nat) (v : View) (l : Listener) (h : Hook) :
    (fireOne id t v l h).1.fn = l.fn ∧ (fireOne id t v l h).2.unmounted = h.unmounted ∧
    (h.unmounted = true → (fireOne id t v l h).2.sticky = h.sticky) := by
  unfold fireOne
  split
  · exact ⟨rfl, rfl, fun _ => rfl⟩
  · split
    · refine ⟨rfl, rfl, ?_⟩
      intro hu
      simp [commit, hu]
    · exact ⟨rfl, rfl, fun _ => rfl⟩

theorem fireAll_frame (id t : Nat) (v : View) (ls : List Listener) :
    ∀ h : Hook, (fireAll id t v ls h).1.map (fun l => l.fn) = ls.map (fun l => l.fn) ∧
      (fireAll id t v ls h).2.unmounted = h.unmounted ∧
      (h.unmounted = true → (fireAll id t v ls h).2.sticky = h.sticky) := by
  induction ls with
  | nil => intro h; exact ⟨rfl, rfl, fun _ => rfl⟩
  | cons l ls ih =>
    intro h
    obtain ⟨i1, i2, i3⟩ := fireOne_frame id t v l h
    obtain ⟨d1, d2, d3⟩ := ih (fireOne id t v l h).2
    simp only [fireAll, List.map_cons]
    refine ⟨by rw [d1, i1], by rw [d2, i2], ?_⟩
    intro hu
    rw [d3 (by rw [i2]; exact hu), i3 hu]

/-- No host event removes a listener, and none changes the cells of a component
that was torn down. -/
theorem step_frame (e : HookEvent) (h : Hook) :
    (Hook.step e h).listeners.map (fun l => l.fn) = h.listeners.map (fun l => l.fn) ∧
    (Hook.step e h).unmounted = h.unmounted ∧
    (h.unmounted = true → (Hook.step e h).sticky = h.sticky) := by
  cases e with
  | scroll t v =>
    simp only [Hook.step]
    split
    · exact dispatch_frame t v h.listeners h
    · exact ⟨rfl, rfl, fun _ => rfl⟩
  | expire id t v =>
    simp only [Hook.step]
    split
    · exact fireAll_frame id t v h.listeners h
    · exact ⟨rfl, rfl, fun _ => rfl⟩

theorem runEvents_frame (evs : List HookEvent) :
    ∀ h : Hook,
      (Hook.runEvents evs h).listeners.map (fun l => l.fn) = h.listeners.map (fun l => l.fn) ∧
      (Hook.runEvents evs h).unmounted = h.unmounted ∧
      (h.unmounted = true → (Hook.runEvents evs h).sticky = h.sticky) := by
  induction evs with
  | nil => intro h; exact ⟨rfl, rfl, fun _ => rfl⟩
  | cons e es ih =>
    intro h
    obtain ⟨s1, s2, s3⟩ := step_frame e h
    obtain ⟨r1, r2, r3⟩ := ih (Hook.step e h)
    simp only [Hook.runEvents]
    refine ⟨by rw [r1, s1], by rw [r2, s2], ?_⟩
    intro hu
    rw [r3 (by rw [s2]; exact hu), s3 hu]

/-- C4 (the code diverges): the cleanup of lines 35-37 passes a new function value
to `removeEventListener`, so after any number `n` of renders the teardown
leaves every registered listener in place, and whatever scroll events and timer
expirations follow a teardown, the same listeners stay registered. The cells do
keep their value after a teardown: the handle is detached, so `handleScroll`
throws before it reaches the setter, and updates of a torn-down component are
dropped. For one mount: after teardown the wrapper registered by the effect is
still registered, and a later scroll event at offset 600 with bottom edge 500
still runs `handleScroll`, which throws the null-reference error and leaves
`isSticky = false`. -/
theorem unmount_keeps_listeners (n : Nat) (h : Hook) (evs : List HookEvent) :
    (unmount (renders n Hook.init)).listeners = (renders n Hook.init).listeners ∧
    (unmount (renders n Hook.init)).listeners.length = n ∧
    (Hook.runEvents evs (unmount h)).listeners.map (fun l => l.fn)
      = (unmount h).listeners.map (fun l => l.fn) ∧
    (Hook.runEvents evs (unmount h)).sticky = (unmount h).sticky ∧
    (unmount (attach 1 (render Hook.init))).listeners
      = [{ fn := 2, timeOut := TimerRef.undefined, timers := [] }] ∧
    (unmount (attach 1 (render Hook.init))).sticky
      = { isSticky := false, element := none } ∧
    (scroll 5 { scrollY := 600, bottom := 500 }
      (unmount (attach 1 (render Hook.init)))).execs
      = [(5, { scrollY := 600, bottom := 500 })] ∧
    (handleScroll { scrollY := 600, bottom := 500 }
      (unmount (attach 1 (render Hook.init))).sticky).2
      = Outcome.threw JSError.nullReference ∧
    (scroll 5 { scrollY := 600, bottom := 500 }
      (unmount (attach 1 (render Hook.init)))).sticky.isSticky = false ∧
    ((scroll 5 { scrollY := 600, bottom := 500 }
      (unmount (attach 1 (render Hook.init)))).listeners.map (fun l => l.fn)) = [2] := by
  obtain ⟨ho, hlen⟩ := renders_ordered n
  have hk : (unmount (renders n Hook.init)).listeners = (renders n Hook.init).listeners :=
    (runCleanup_listeners (renders n Hook.init) ho.1).1
  obtain ⟨r1, _, r3⟩ := runEvents_frame evs (unmount h)
  refine ⟨hk, by rw [hk, hlen], r1, r3 rfl, by decide, by decide, by decide, by decide,
    by decide, by decide⟩

/-- C5 (the code diverges): as the cleanup removes nothing and every render
creates new `debounce` and `handleScroll` values, each render registers one
more listener: after `n` renders of one mounted component `n` listeners are
registered. After the first render one is; when a scroll event then changes
`isSticky` and the component renders again, two are. -/
theorem renders_accumulate_listeners (n : Nat) :
    (renders n Hook.init).listeners.length = n ∧
    (attach 1 (render Hook.init)).listeners.length = 1 ∧
    (scrollMounted 5 { scrollY := 600, bottom := 500 }
      (attach 1 (render Hook.init))).listeners.length = 2 ∧
    ((scrollMounted 5 { scrollY := 600, bottom := 500 }
      (attach 1 (render Hook.init))).listeners.map (fun l => l.fn)) = [2, 6] := by
  exact ⟨(renders_ordered n).2, by decide, by decide, by decide⟩

/-! ## Instances of the claims on sample inputs -/

/-- Instance of C2: ten calls within 5 ms, `wait = 20`, then the last timer fires
at 24: one execution, on what the first event saw. -/
theorem debounce_leading_burst_once_witness :
    Burst 20 burst10 ∧
    ∃ s, (debounce handleScroll 20 true).run
        (callTrace burst10 ++ [Event.expire 10 24 viewBefore])
        (DState.fresh 0 0 stickyBound) = some s ∧
      s.execs = [(0, viewPast)] ∧ s.app = (handleScroll viewPast stickyBound).1 :=
  ⟨by simp [Burst, burst10],
   { timeOut := TimerRef.null, now := 24, nextId := 10, timers := [],
     app := { isSticky := true, element := some 1 }, execs := [(0, viewPast)] },
   by rfl,
   (debounce_leading_burst_once (debounce handleScroll 20 true) rfl 0 0 stickyBound
      (0, viewPast) (4, viewBefore) burst10.tail rfl
      (by simp [Burst, burst10, debounce]) (Nat.le_refl 0)).1
      (callTrace burst10 ++ [Event.expire 10 24 viewBefore]) _ (by rfl) (by rfl)⟩

/-- Instance of C3: calls at 0 and 30 with `wait = 20`, the first timer firing at
20: two executions. -/
theorem debounce_leading_two_spaced_calls_witness :
    ∃ s1 s2 s3,
      (debounce handleScroll 20 true).step (Event.call 0 viewBefore)
        (DState.fresh 0 0 stickyBound) = some s1 ∧
      s1.execs = [(0, viewBefore)] ∧
      s1.timers = [{ id := 0 + 1, deadline := 0 + 20 }] ∧
      (debounce handleScroll 20 true).step (Event.expire (0 + 1) 20 viewBefore) s1
        = some s2 ∧
      s2.execs = [(0, viewBefore)] ∧
      (debounce handleScroll 20 true).step (Event.call 30 viewPast) s2 = some s3 ∧
      s3.execs = [(0, viewBefore), (30, viewPast)] ∧
      s3.app = (handleScroll viewPast (handleScroll viewBefore stickyBound).1).1 ∧
      (debounce handleScroll 20 true).run
        [Event.call 0 viewBefore, Event.expire (0 + 1) 20 viewBefore,
          Event.call 30 viewPast]
        (DState.fresh 0 0 stickyBound) = some s3 :=
  debounce_leading_two_spaced_calls (debounce handleScroll 20 true) rfl 0 0 stickyBound
    0 20 30 viewBefore viewBefore viewPast (Nat.le_refl 0) (by decide) (by decide)
    (by decide)

/-- Instance of C6: a trailing-mode wrapper called at 0 and at 5. -/
theorem debounce_single_timer_witness :
    (debounce handleScroll 20 false).run [Event.call 0 viewBefore, Event.call 5 viewPast]
        (DState.fresh 0 0 stickyBound)
      = some { timeOut := TimerRef.id 2, now := 5, nextId := 2,
               timers := [{ id := 2, deadline := 25 }], app := stickyBound, execs := [] } ∧
    ([{ id := 2, deadline := 25 }] : List Timer).length ≤ 1 :=
  ⟨by rfl,
   (debounce_single_timer (debounce handleScroll 20 false) 0 0 stickyBound
      [Event.call 0 viewBefore, Event.call 5 viewPast]
      { timeOut := TimerRef.id 2, now := 5, nextId := 2,
        timers := [{ id := 2, deadline := 25 }], app := stickyBound, execs := [] }
      (by rfl)).1⟩

/-- Instance of C8: calls at 0 and 30 with the timer firing at 20 in between. -/
theorem debounce_leading_spacing_witness :
    (debounce handleScroll 20 true).run
        [Event.call 0 viewBefore, Event.expire 1 20 viewBefore, Event.call 30 viewPast]
        (DState.fresh 0 0 stickyBound)
      = some { timeOut := TimerRef.id 2, now := 30, nextId := 2,
               timers := [{ id := 2, deadline := 50 }],
               app := { isSticky := true, element := some 1 },
               execs := [(0, viewBefore), (30, viewPast)] } ∧
    List.Pairwise (fun a b : Nat × View => a.1 ≤ b.1 ∧ a.1 + 20 ≤ b.1)
      [(0, viewBefore), (30, viewPast)] :=
  ⟨by rfl,
   (debounce_leading_spacing (debounce handleScroll 20 true) rfl 0 0 stickyBound
      [Event.call 0 viewBefore, Event.expire 1 20 viewBefore, Event.call 30 viewPast]
      { timeOut := TimerRef.id 2, now := 30, nextId := 2,
        timers := [{ id := 2, deadline := 50 }],
        app := { isSticky := true, element := some 1 },
        execs := [(0, viewBefore), (30, viewPast)] }
      (by rfl)).1⟩

/-- Instance of C9: after one call at 0, a call at 19 is suppressed although it
arrives 19 ms after the only execution. -/
theorem debounce_leading_no_trailing_witness :
    (debounce handleScroll 20 true).run [Event.call 0 viewPast]
        (DState.fresh 0 0 stickyBound)
      = some { timeOut := TimerRef.id 1, now := 0, nextId := 1,
               timers := [{ id := 1, deadline := 20 }],
               app := { isSticky := true, element := some 1 },
               execs := [(0, viewPast)] } ∧
    ∀ s1, (debounce handleScroll 20 true).step (Event.call 19 viewBefore)
        { timeOut := TimerRef.id 1, now := 0, nextId := 1,
          timers := [{ id := 1, deadline := 20 }],
          app := { isSticky := true, element := some 1 },
          execs := [(0, viewPast)] } = some s1 →
      s1.execs = [(0, viewPast)] ∧ s1.app = { isSticky := true, element := some 1 } ∧
        ∃ id, s1.timers = [{ id := id, deadline := 19 + 20 }] ∧
          s1.timeOut = TimerRef.id id :=
  ⟨by rfl,
   fun s1 h1 =>
    (debounce_leading_no_trailing (debounce handleScroll 20 true) rfl 0 0 stickyBound
      [Event.call 0 viewPast]
      { timeOut := TimerRef.id 1, now := 0, nextId := 1,
        timers := [{ id := 1, deadline := 20 }],
        app := { isSticky := true, element := some 1 },
        execs := [(0, viewPast)] }
      (by rfl)).2.2 (0, viewPast) 19 viewBefore s1 rfl (by decide) h1⟩

/-- Instance of C10: the ten calls of `burst10` in trailing mode, then the last
timer fires at 24: one execution, by the timer, on what the page shows at 24. -/
theorem debounce_trailing_burst_once_witness :
    Burst 20 burst10 ∧
    ∃ s1 id, (debounce handleScroll 20 false).run (callTrace burst10)
        (DState.fresh 0 0 stickyBound) = some s1 ∧
      s1.timers = [{ id := id, deadline := 4 + 20 }] ∧ s1.execs = [] ∧
      ∀ tf j, 4 + 20 ≤ tf →
        ∃ s2, (debounce handleScroll 20 false).run
            (callTrace burst10 ++ [Event.expire id tf j])
            (DState.fresh 0 0 stickyBound) = some s2 ∧
          s2.timers = [] ∧ s2.execs = [(tf, j)] ∧ s2.app = (handleScroll j stickyBound).1 :=
  ⟨by simp [Burst, burst10],
   (debounce_trailing_burst_once (debounce handleScroll 20 false) rfl 0 0 stickyBound
      (0, viewPast) (4, viewBefore) burst10.tail rfl
      (by simp [Burst, burst10, debounce]) (Nat.le_refl 0)).2.2⟩

/-- C8 as stated fails at `wait = 0`: a call at 0, the expiration of its timer at
0 and another call at 0 are all possible, and `func` is executed twice at the
same instant, so the two executions are not at instants `e1 < e2`. -/
theorem debounce_leading_spacing_counterexample :
    ∃ s, (debounce handleScroll 0 true).run
        [Event.call 0 viewPast, Event.expire 1 0 viewPast, Event.call 0 viewPast]
        (DState.fresh 0 0 stickyBound) = some s ∧
      s.execs = [(0, viewPast), (0, viewPast)] ∧
      ¬ List.Pairwise (fun a b : Nat × View => a.1 < b.1) s.execs :=
  ⟨{ timeOut := TimerRef.id 2, now := 0, nextId := 2,
     timers := [{ id := 2, deadline := 0 }],
     app := { isSticky := true, element := some 1 },
     execs := [(0, viewPast), (0, viewPast)] },
   by rfl, rfl, by simp⟩

end UseSticky
